/-
Verification development for the parakeet-coreml decoding and segmentation
core: the mel-spectrogram feature extractor, the voice-activity segmenter,
and the token-and-duration transducer (TDT) greedy decoder.

The repository ships only the interface headers (asr_engine.h,
mel_spectrogram.h, transducer_decoder.h, vad_engine.h); the implementation
files are not part of the source tree available here.  Every algorithmic
definition below is therefore modelled from the specification's algorithm
descriptions, faithful to its words, and each doc comment says so.
Machine floats are modelled as exact rationals; the external CoreML model
calls (prediction network, joint network, VAD probability model) are opaque
function parameters, as the spec treats them.
-/
import Mathlib

namespace TransducerDecoder

/-- Modelled from the spec: the `ModelInferenceError` failure kind that an
external decoder/joint function signals on a model-execution failure
(the error type itself is described in spec section 7; its implementation
is not under src/). -/
inductive ModelInferenceError : Type
  | mk : ModelInferenceError
deriving DecidableEq

/-- Full observable outcome of one greedy-decode run: the optional surfaced
error, the accumulated token list, the number of joint-network invocations,
the final loop state (time index, recurrent state, last emitted token), and
a completion flag that is true whenever the loop stopped at its own
termination condition (`t ≥ N` or an external failure) rather than by
exhausting its step budget. -/
structure DecodeOut (D : Type) : Type where
  err : Option ModelInferenceError
  tokens : List ℕ
  calls : ℕ
  tFinal : ℕ
  dFinal : D
  yFinal : ℕ
  done : Bool
deriving DecidableEq

/-- First index of a maximal element of a list of logits (deterministic
argmax; ties resolved to the earliest index). -/
def argmaxIdx : List ℚ → ℕ
  | [] => 0
  | _ :: [] => 0
  | x :: y :: xs =>
    let j := argmaxIdx (y :: xs)
    if x < (y :: xs).getD j 0 then j + 1 else 0

/-- Modelled from the spec: the predicted duration.  The joint network may
carry a parallel duration head; its argmax selects one of the duration
classes `durs`.  When no duration head is present (`durLogits` empty) the
loop falls back to a duration of 1. -/
def predDur (durs : List ℕ) (durLogits : List ℚ) : ℕ :=
  if durLogits.isEmpty then 1 else durs.getD (argmaxIdx durLogits) 1

/-- Modelled from the spec: one greedy TDT decode loop
(`TransducerDecoder::decode`, implementation not under src/).  State is
`(time index t, decoder recurrent state d, last emitted token y,
symbols-at-current-frame counter syms, output list T)`; `calls` counts joint
invocations.  Per step: run the prediction network on `(y, d)`, run the
joint network on `(encoder frame t, prediction)`, take the argmax token.
On blank: advance `t += max 1 duration`, leaving `y`, `d` and `T` unchanged.
On a token: append it, update `y` and `d`, advance `t` by the predicted
duration, except that a predicted duration of 0 keeps `t` fixed until the
per-frame symbol cap forces `t + 1`.  A failure of either external function
aborts the loop with the error recorded.  Terminates when `t ≥ N`.  The
first argument is a structural step budget; `decodeRun` supplies a budget
exceeding the loop's step bound, and `decodeLoop_done` proves the budget is
never exhausted, which is the termination argument. -/
def decodeLoop {P D : Type}
    (decoderFn : ℕ → D → Except ModelInferenceError (P × D))
    (jointFn : List ℚ → P → Except ModelInferenceError (List ℚ × List ℚ))
    (frames : List (List ℚ)) (durs : List ℕ) (blankId maxSyms N : ℕ) :
    ℕ → ℕ → D → ℕ → ℕ → List ℕ → ℕ → DecodeOut D
  | 0, t, d, y, _syms, T, calls =>
    if t < N then ⟨none, T, calls, t, d, y, false⟩
    else ⟨none, T, calls, t, d, y, true⟩
  | fuel + 1, t, d, y, syms, T, calls =>
    if t < N then
      match decoderFn y d with
      | .error e => ⟨some e, T, calls, t, d, y, true⟩
      | .ok pd =>
        match jointFn (frames.getD t []) pd.1 with
        | .error e => ⟨some e, T, calls + 1, t, d, y, true⟩
        | .ok lg =>
          if argmaxIdx lg.1 = blankId then
            decodeLoop decoderFn jointFn frames durs blankId maxSyms N fuel
              (t + max 1 (predDur durs lg.2)) d y 0 T (calls + 1)
          else if predDur durs lg.2 = 0 ∧ syms + 1 < maxSyms then
            decodeLoop decoderFn jointFn frames durs blankId maxSyms N fuel
              t pd.2 (argmaxIdx lg.1) (syms + 1) (T ++ [argmaxIdx lg.1]) (calls + 1)
          else
            decodeLoop decoderFn jointFn frames durs blankId maxSyms N fuel
              (max (t + 1) (t + predDur durs lg.2)) pd.2 (argmaxIdx lg.1) 0
              (T ++ [argmaxIdx lg.1]) (calls + 1)
    else ⟨none, T, calls, t, d, y, true⟩

/-- Modelled from the spec: the number of frames actually decoded —
`numFrames`, or the full encoder-output frame count when `numFrames = 0`
("use all available frames"). -/
def effectiveN (numFrames : ℕ) (frames : List (List ℚ)) : ℕ :=
  if numFrames = 0 then frames.length else numFrames

/-- The step budget a full run hands the loop: strictly more than the
`N · (maxSyms + 1)` steps the loop can take. -/
def decodeFuel (maxSyms N : ℕ) : ℕ := N * maxSyms + maxSyms + N + 1

/-- The full decode run from the initial state: `t = 0`, fresh recurrent
state `d0`, last token = blank sentinel, empty output. -/
def decodeRun {P D : Type}
    (decoderFn : ℕ → D → Except ModelInferenceError (P × D))
    (jointFn : List ℚ → P → Except ModelInferenceError (List ℚ × List ℚ))
    (frames : List (List ℚ)) (durs : List ℕ) (blankId maxSyms numFrames : ℕ)
    (d0 : D) : DecodeOut D :=
  decodeLoop decoderFn jointFn frames durs blankId maxSyms
    (effectiveN numFrames frames)
    (decodeFuel maxSyms (effectiveN numFrames frames)) 0 d0 blankId 0 [] 0

/-- Modelled from the spec: `TransducerDecoder::decode` as seen by the
caller — the decoded token ids on success, a `ModelInferenceError` on
failure, with any partially decoded tokens discarded. -/
def decode {P D : Type}
    (decoderFn : ℕ → D → Except ModelInferenceError (P × D))
    (jointFn : List ℚ → P → Except ModelInferenceError (List ℚ × List ℚ))
    (frames : List (List ℚ)) (durs : List ℕ) (blankId maxSyms numFrames : ℕ)
    (d0 : D) : Except ModelInferenceError (List ℕ) :=
  let r := decodeRun decoderFn jointFn frames durs blankId maxSyms numFrames d0
  match r.err with
  | some e => .error e
  | none => .ok r.tokens

/-- Arithmetic step for the decode bound: advancing the time index by at
least one frame pays for one external call plus the symbols pending at the
old frame. -/
theorem advance_bound {M N t t' s x c : ℕ} (ht : t < N) (ht' : t + 1 ≤ t')
    (hs : s < M) (h : x ≤ c + 1 + (N - t') * M) : x + s ≤ c + (N - t) * M := by
  have h1 : (N - t') * M ≤ (N - t - 1) * M := Nat.mul_le_mul_right _ (by omega)
  have h2 : (N - t - 1 + 1) * M = (N - t) * M := by
    rw [(by omega : N - t - 1 + 1 = N - t)]
  have h3 : (N - t - 1 + 1) * M = (N - t - 1) * M + M := Nat.succ_mul _ _
  omega

/-- Arithmetic step for the completion argument: advancing the time index
refunds a full frame's worth of step budget. -/
theorem fuel_step {M N t t' s f : ℕ} (ht : t < N) (ht' : t + 1 ≤ t')
    (hs : s ≤ M) (h : (N - t) * (M + 1) ≤ f + 1 + s) :
    (N - t') * (M + 1) ≤ f := by
  have h1 : (N - t') * (M + 1) ≤ (N - t - 1) * (M + 1) :=
    Nat.mul_le_mul_right _ (by omega)
  have h2 : (N - t - 1 + 1) * (M + 1) = (N - t) * (M + 1) := by
    rw [(by omega : N - t - 1 + 1 = N - t)]
  have h3 : (N - t - 1 + 1) * (M + 1) = (N - t - 1) * (M + 1) + (M + 1) :=
    Nat.succ_mul _ _
  omega

/-- Invariant of the greedy loop: from a state with `syms` pending symbols,
the loop performs at most `(N - t) * maxSyms - syms` further joint calls
and emits at most that many further tokens — whatever the step budget. -/
theorem decodeLoop_bound {P D : Type}
    (decoderFn : ℕ → D → Except ModelInferenceError (P × D))
    (jointFn : List ℚ → P → Except ModelInferenceError (List ℚ × List ℚ))
    (frames : List (List ℚ)) (durs : List ℕ) (blankId maxSyms N : ℕ) :
    ∀ (fuel t : ℕ) (d : D) (y syms : ℕ) (T : List ℕ) (calls : ℕ),
    syms < maxSyms → (syms = 0 ∨ t < N) →
    (decodeLoop decoderFn jointFn frames durs blankId maxSyms N
        fuel t d y syms T calls).calls + syms ≤ calls + (N - t) * maxSyms ∧
    (decodeLoop decoderFn jointFn frames durs blankId maxSyms N
        fuel t d y syms T calls).tokens.length + syms
      ≤ T.length + (N - t) * maxSyms := by
  intro fuel
  induction fuel with
  | zero =>
    intro t d y syms T calls hsy hts
    rw [decodeLoop]
    by_cases htN : t < N
    · simp only [if_pos htN]
      have h1 : maxSyms ≤ (N - t) * maxSyms := Nat.le_mul_of_pos_left _ (by omega)
      constructor <;> omega
    · simp only [if_neg htN]
      have hsy0 : syms = 0 := by
        rcases hts with h | h
        · exact h
        · exact absurd h htN
      constructor <;> omega
  | succ f ih =>
    intro t d y syms T calls hsy hts
    rw [decodeLoop]
    by_cases htN : t < N
    · simp only [if_pos htN]
      have h1 : maxSyms ≤ (N - t) * maxSyms := Nat.le_mul_of_pos_left _ (by omega)
      cases hde : decoderFn y d with
      | error e =>
        simp only [hde]
        constructor <;> omega
      | ok pd =>
        simp only [hde]
        cases hj : jointFn (frames.getD t []) pd.1 with
        | error e =>
          simp only [hj]
          constructor <;> omega
        | ok lg =>
          simp only [hj]
          by_cases hk : argmaxIdx lg.1 = blankId
          · simp only [if_pos hk]
            obtain ⟨ih1, ih2⟩ := ih (t + max 1 (predDur durs lg.2)) d y 0 T
              (calls + 1) (by omega) (Or.inl rfl)
            have ht' : t + 1 ≤ t + max 1 (predDur durs lg.2) := by
              have := Nat.le_max_left 1 (predDur durs lg.2)
              omega
            exact ⟨advance_bound htN ht' hsy (by omega),
                   advance_bound htN ht' hsy (by omega)⟩
          · simp only [if_neg hk]
            by_cases hs : predDur durs lg.2 = 0 ∧ syms + 1 < maxSyms
            · simp only [if_pos hs]
              obtain ⟨ih1, ih2⟩ := ih t pd.2 (argmaxIdx lg.1) (syms + 1)
                (T ++ [argmaxIdx lg.1]) (calls + 1) hs.2 (Or.inr htN)
              simp only [List.length_append, List.length_cons,
                List.length_nil] at ih2 ⊢
              exact ⟨by omega, by omega⟩
            · simp only [if_neg hs]
              obtain ⟨ih1, ih2⟩ := ih (max (t + 1) (t + predDur durs lg.2)) pd.2
                (argmaxIdx lg.1) 0 (T ++ [argmaxIdx lg.1]) (calls + 1)
                (by omega) (Or.inl rfl)
              simp only [List.length_append, List.length_cons,
                List.length_nil] at ih2
              have ht' : t + 1 ≤ max (t + 1) (t + predDur durs lg.2) :=
                Nat.le_max_left _ _
              exact ⟨advance_bound htN ht' hsy (by omega),
                     advance_bound htN ht' hsy (by omega)⟩
    · simp only [if_neg htN]
      have hsy0 : syms = 0 := by
        rcases hts with h | h
        · exact h
        · exact absurd h htN
      constructor <;> omega

/-- Completion: with a step budget exceeding `(N - t) · (maxSyms + 1)`, the
loop always stops at its own termination condition — this is the
termination argument for the decode. -/
theorem decodeLoop_done {P D : Type}
    (decoderFn : ℕ → D → Except ModelInferenceError (P × D))
    (jointFn : List ℚ → P → Except ModelInferenceError (List ℚ × List ℚ))
    (frames : List (List ℚ)) (durs : List ℕ) (blankId maxSyms N : ℕ) :
    ∀ (fuel t : ℕ) (d : D) (y syms : ℕ) (T : List ℕ) (calls : ℕ),
    (N - t) * (maxSyms + 1) ≤ fuel + syms → syms ≤ maxSyms →
    (decodeLoop decoderFn jointFn frames durs blankId maxSyms N
        fuel t d y syms T calls).done = true := by
  intro fuel
  induction fuel with
  | zero =>
    intro t d y syms T calls hfuel hsy
    rw [decodeLoop]
    by_cases htN : t < N
    · exfalso
      have h1 : maxSyms + 1 ≤ (N - t) * (maxSyms + 1) :=
        Nat.le_mul_of_pos_left _ (by omega)
      omega
    · simp only [if_neg htN]
  | succ f ih =>
    intro t d y syms T calls hfuel hsy
    rw [decodeLoop]
    by_cases htN : t < N
    · simp only [if_pos htN]
      cases hde : decoderFn y d with
      | error e => simp only [hde]
      | ok pd =>
        simp only [hde]
        cases hj : jointFn (frames.getD t []) pd.1 with
        | error e => simp only [hj]
        | ok lg =>
          simp only [hj]
          by_cases hk : argmaxIdx lg.1 = blankId
          · simp only [if_pos hk]
            have ht' : t + 1 ≤ t + max 1 (predDur durs lg.2) := by
              have := Nat.le_max_left 1 (predDur durs lg.2)
              omega
            exact ih (t + max 1 (predDur durs lg.2)) d y 0 T (calls + 1)
              (by simpa using fuel_step htN ht' hsy hfuel) (by omega)
          · simp only [if_neg hk]
            by_cases hs : predDur durs lg.2 = 0 ∧ syms + 1 < maxSyms
            · simp only [if_pos hs]
              exact ih t pd.2 (argmaxIdx lg.1) (syms + 1)
                (T ++ [argmaxIdx lg.1]) (calls + 1) (by omega) (by omega)
            · simp only [if_neg hs]
              have ht' : t + 1 ≤ max (t + 1) (t + predDur durs lg.2) :=
                Nat.le_max_left _ _
              exact ih (max (t + 1) (t + predDur durs lg.2)) pd.2
                (argmaxIdx lg.1) 0 (T ++ [argmaxIdx lg.1]) (calls + 1)
                (by simpa using fuel_step htN ht' hsy hfuel) (by omega)
    · simp only [if_neg htN]

/-- When the joint network always selects the blank token and neither
external function fails, the loop only ever takes the blank branch: the
token list, the recurrent state and the last-emitted token never change,
and — given a step budget of at least `N - t` — the final time index
reaches `N` with the loop completed. -/
theorem decodeLoop_blankOnly {P D : Type}
    (decoderFn : ℕ → D → Except ModelInferenceError (P × D))
    (jointFn : List ℚ → P → Except ModelInferenceError (List ℚ × List ℚ))
    (frames : List (List ℚ)) (durs : List ℕ) (blankId maxSyms N : ℕ)
    (hdec : ∀ y d, ∃ pd, decoderFn y d = .ok pd)
    (hjoint : ∀ h p, ∃ lg, jointFn h p = .ok lg ∧ argmaxIdx lg.1 = blankId) :
    ∀ (fuel t : ℕ) (d : D) (y syms : ℕ) (T : List ℕ) (calls : ℕ),
    N ≤ fuel + t →
    ∃ t' calls',
      decodeLoop decoderFn jointFn frames durs blankId maxSyms N
        fuel t d y syms T calls = ⟨none, T, calls', t', d, y, true⟩ ∧ N ≤ t' := by
  intro fuel
  induction fuel with
  | zero =>
    intro t d y syms T calls hfuel
    rw [decodeLoop]
    have htN : ¬ t < N := by omega
    simp only [if_neg htN]
    exact ⟨t, calls, rfl, by omega⟩
  | succ f ih =>
    intro t d y syms T calls hfuel
    rw [decodeLoop]
    by_cases htN : t < N
    · simp only [if_pos htN]
      obtain ⟨pd, hpd⟩ := hdec y d
      obtain ⟨lg, hlg, hb⟩ := hjoint (frames.getD t []) pd.1
      simp only [hpd, hlg, if_pos hb]
      exact ih (t + max 1 (predDur durs lg.2)) d y 0 T (calls + 1)
        (by have := Nat.le_max_left 1 (predDur durs lg.2); omega)
    · simp only [if_neg htN]
      exact ⟨t, calls, rfl, by omega⟩

/-- A failing external call at the current step makes the loop stop at once
with the error recorded and the accumulated state frozen. -/
theorem decodeLoop_error_step {P D : Type}
    (decoderFn : ℕ → D → Except ModelInferenceError (P × D))
    (jointFn : List ℚ → P → Except ModelInferenceError (List ℚ × List ℚ))
    (frames : List (List ℚ)) (durs : List ℕ) (blankId maxSyms N : ℕ)
    (fuel t : ℕ) (d : D) (y syms : ℕ) (T : List ℕ) (calls : ℕ)
    (e : ModelInferenceError) (ht : t < N) :
    (decoderFn y d = .error e →
      decodeLoop decoderFn jointFn frames durs blankId maxSyms N
        (fuel + 1) t d y syms T calls = ⟨some e, T, calls, t, d, y, true⟩) ∧
    (∀ pd, decoderFn y d = .ok pd →
      jointFn (frames.getD t []) pd.1 = .error e →
      decodeLoop decoderFn jointFn frames durs blankId maxSyms N
        (fuel + 1) t d y syms T calls = ⟨some e, T, calls + 1, t, d, y, true⟩) := by
  constructor
  · intro hde
    rw [decodeLoop]
    simp only [if_pos ht, hde]
  · intro pd hpd hj
    rw [decodeLoop]
    simp only [if_pos ht, hpd, hj]

/-- The caller-facing result drops the token list exactly when the run
records an error, and returns it exactly when it does not. -/
theorem decode_err_cases {P D : Type}
    (decoderFn : ℕ → D → Except ModelInferenceError (P × D))
    (jointFn : List ℚ → P → Except ModelInferenceError (List ℚ × List ℚ))
    (frames : List (List ℚ)) (durs : List ℕ) (blankId maxSyms numFrames : ℕ)
    (d0 : D) (e : ModelInferenceError) :
    ((decodeRun decoderFn jointFn frames durs blankId maxSyms numFrames d0).err = some e →
      decode decoderFn jointFn frames durs blankId maxSyms numFrames d0 = .error e) ∧
    (∀ T, decode decoderFn jointFn frames durs blankId maxSyms numFrames d0 = .ok T →
      (decodeRun decoderFn jointFn frames durs blankId maxSyms numFrames d0).err = none ∧
      T = (decodeRun decoderFn jointFn frames durs blankId maxSyms numFrames d0).tokens) := by
  constructor
  · intro h
    rw [decode]
    simp only [h]
  · intro T h
    rw [decode] at h
    rcases he : (decodeRun decoderFn jointFn frames durs blankId maxSyms numFrames d0).err with _ | e'
    · simp only [he] at h
      exact ⟨rfl, by injection h with h'; exact h'.symm⟩
    · simp only [he] at h
      exact absurd h (by simp)

end TransducerDecoder

/-- A detected speech segment (`vad_engine.h`): start and end times in
seconds, modelled as exact rationals. -/
structure SpeechSegment : Type where
  startTime : ℚ
  endTime : ℚ
deriving DecidableEq

namespace VadEngine

/-- `VadEngine::FRAME_SIZE`: samples per VAD frame (36 ms at 16 kHz). -/
def FRAME_SIZE : ℕ := 576

/-- `VadEngine::STATE_SIZE`: LSTM hidden/cell dimension. -/
def STATE_SIZE : ℕ := 128

/-- `VadEngine::SAMPLE_RATE`: expected input sample rate. -/
def SAMPLE_RATE : ℕ := 16000

/-- The engine's recurrent state: the LSTM hidden and cell vectors
(`hiddenState_`, `cellState_`). -/
structure VadState : Type where
  hidden : List ℚ
  cell : List ℚ
deriving DecidableEq

/-- The all-zero recurrent state. -/
def zeroState : VadState :=
  ⟨List.replicate STATE_SIZE 0, List.replicate STATE_SIZE 0⟩

/-- Modelled from the spec: `VadEngine::resetState` (implementation not
under src/) zeroes both LSTM state vectors. -/
def resetState (_s : VadState) : VadState := zeroState

/-- The FRAME_SIZE samples the engine reads from the caller's buffer:
indices `0` through `FRAME_SIZE - 1`, missing samples read as zero. -/
def frameOf (buf : List ℚ) : List ℚ :=
  (List.range FRAME_SIZE).map (fun i => buf.getD i 0)

/-- Modelled from the spec: `VadEngine::processFrame` (implementation not
under src/) feeds one FRAME_SIZE-sample frame and the current hidden/cell
state to the external VAD probability model `vadFn` and returns the
probability together with the updated state. -/
def processFrame (vadFn : List ℚ → List ℚ → List ℚ → ℚ × List ℚ × List ℚ)
    (s : VadState) (buf : List ℚ) : ℚ × VadState :=
  let r := vadFn (frameOf buf) s.hidden s.cell
  (r.1, ⟨r.2.1, r.2.2⟩)

/-- Duration of `k` VAD frames in milliseconds
(`k · FRAME_SIZE / SAMPLE_RATE · 1000`; exact, since 576·1000/16000 = 36). -/
def frameMs (k : ℕ) : ℕ := k * FRAME_SIZE * 1000 / SAMPLE_RATE

/-- Conversion of a frame index to seconds via `FRAME_SIZE / SAMPLE_RATE`. -/
def frameSec (i : ℕ) : ℚ := (i * FRAME_SIZE : ℚ) / SAMPLE_RATE

/-- State of the single-pass segment-merging scan: closed segments (frame
index ranges), the currently open provisional segment `(start, end)` with
`end` the frame after the last speech frame, and the length of the current
run of non-speech frames inside the open segment. -/
structure SegState : Type where
  segs : List (ℕ × ℕ)
  cur : Option (ℕ × ℕ)
  sil : ℕ
deriving DecidableEq

/-- Modelled from the spec: one step of the merging scan at frame `i` with
probability `p`.  A speech frame (`p ≥ threshold`) opens or extends the
current segment and clears the silence run; a non-speech frame inside an
open segment extends the silence run and closes the segment once the run
reaches `minSilenceDurationMs`. -/
def segStep (th : ℚ) (minSilenceMs : ℕ) (st : SegState) (i : ℕ) (p : ℚ) :
    SegState :=
  if th ≤ p then
    match st.cur with
    | none => ⟨st.segs, some (i, i + 1), 0⟩
    | some se => ⟨st.segs, some (se.1, i + 1), 0⟩
  else
    match st.cur with
    | none => st
    | some se =>
      if minSilenceMs ≤ frameMs (st.sil + 1) then ⟨st.segs ++ [se], none, 0⟩
      else ⟨st.segs, some se, st.sil + 1⟩

/-- The merging scan over a list of per-frame speech probabilities,
starting at frame index `i`. -/
def segLoop (th : ℚ) (minSilenceMs : ℕ) : ℕ → SegState → List ℚ → SegState
  | _, st, [] => st
  | i, st, p :: ps => segLoop th minSilenceMs (i + 1) (segStep th minSilenceMs st i p) ps

/-- Provisional segments of a probability trace: run the scan from the
empty state and close the still-open segment, if any, at its last speech
frame. -/
def provisionalSegs (th : ℚ) (minSilenceMs : ℕ) (probs : List ℚ) :
    List (ℕ × ℕ) :=
  let st := segLoop th minSilenceMs 0 ⟨[], none, 0⟩ probs
  st.segs ++ st.cur.toList

/-- Modelled from the spec: the classification/merging part of
`VadEngine::detectSpeechSegments` (implementation not under src/), from the
per-frame speech probabilities: merge speech runs, absorb short silences,
drop provisional segments shorter than `minSpeechDurationMs`, and convert
frame indices to seconds. -/
def detectFromProbs (probs : List ℚ) (th : ℚ)
    (minSilenceMs minSpeechMs : ℕ) : List SpeechSegment :=
  ((provisionalSegs th minSilenceMs probs).filter
      (fun se => minSpeechMs ≤ frameMs (se.2 - se.1))).map
    (fun se => ⟨frameSec se.1, frameSec se.2⟩)

/-- Number of FRAME_SIZE-sample frames covering `n` samples, the final
partial frame zero-padded. -/
def numVadFrames (n : ℕ) : ℕ := (n + FRAME_SIZE - 1) / FRAME_SIZE

/-- The `j`-th FRAME_SIZE-sample frame of the waveform, zero-padded. -/
def vadFrame (samples : List ℚ) (j : ℕ) : List ℚ :=
  (List.range FRAME_SIZE).map (fun i => samples.getD (j * FRAME_SIZE + i) 0)

/-- Per-frame speech probabilities of a frame list, threading the recurrent
state through `processFrame`. -/
def probsLoop (vadFn : List ℚ → List ℚ → List ℚ → ℚ × List ℚ × List ℚ) :
    List (List ℚ) → VadState → List ℚ
  | [], _ => []
  | f :: fs, s =>
    (processFrame vadFn s f).1 :: probsLoop vadFn fs (processFrame vadFn s f).2

/-- Modelled from the spec: `VadEngine::detectSpeechSegments`
(implementation not under src/): reset the recurrent state, partition the
waveform into FRAME_SIZE frames (final frame zero-padded), obtain each
frame's probability from the external model, then merge/filter/convert. -/
def detectSpeechSegments (vadFn : List ℚ → List ℚ → List ℚ → ℚ × List ℚ × List ℚ)
    (samples : List ℚ) (th : ℚ) (minSilenceMs minSpeechMs : ℕ) :
    List SpeechSegment :=
  detectFromProbs
    (probsLoop vadFn ((List.range (numVadFrames samples.length)).map (vadFrame samples)) zeroState)
    th minSilenceMs minSpeechMs

end VadEngine

namespace VadEngine

/-- `k` frames of 576 samples at 16 kHz last exactly `36 k` milliseconds. -/
theorem frameMs_eq (k : ℕ) : frameMs k = 36 * k := by
  unfold frameMs FRAME_SIZE SAMPLE_RATE
  omega

/-- The merging scan splits over list concatenation. -/
theorem segLoop_append (th : ℚ) (ms : ℕ) (l1 l2 : List ℚ) :
    ∀ (i : ℕ) (st : SegState),
      segLoop th ms i st (l1 ++ l2) =
        segLoop th ms (i + l1.length) (segLoop th ms i st l1) l2 := by
  induction l1 with
  | nil => intro i st; simp [segLoop]
  | cons p ps ih =>
    intro i st
    rw [List.cons_append, segLoop, ih, List.length_cons, segLoop]
    rw [(by omega : i + (ps.length + 1) = i + 1 + ps.length)]

/-- Non-speech frames with no open segment leave the scan state unchanged. -/
theorem segLoop_silence_none {q th : ℚ} (hq : q < th) (ms : ℕ) :
    ∀ (n i : ℕ) (segs : List (ℕ × ℕ)) (sil : ℕ),
      segLoop th ms i ⟨segs, none, sil⟩ (List.replicate n q) = ⟨segs, none, sil⟩ := by
  intro n
  induction n with
  | zero => intro i segs sil; simp [segLoop]
  | succ m ih =>
    intro i segs sil
    rw [List.replicate_succ, segLoop, segStep]
    simp only [not_le.mpr hq, if_false]
    exact ih (i + 1) segs sil

/-- A run of speech frames extends the open segment to its last frame and
clears the silence run. -/
theorem segLoop_speech_some {p th : ℚ} (hp : th ≤ p) (ms : ℕ) :
    ∀ (n i : ℕ) (segs : List (ℕ × ℕ)) (s e sil : ℕ),
      segLoop th ms i ⟨segs, some (s, e), sil⟩ (List.replicate (n + 1) p) =
        ⟨segs, some (s, i + (n + 1)), 0⟩ := by
  intro n
  induction n with
  | zero =>
    intro i segs s e sil
    rw [List.replicate_succ, segLoop, segStep]
    simp [hp, segLoop]
  | succ m ih =>
    intro i segs s e sil
    rw [List.replicate_succ, segLoop, segStep]
    simp only [hp, if_true, if_pos hp]
    rw [ih (i + 1) segs s (i + 1) 0]
    rw [(by omega : i + 1 + (m + 1) = i + (m + 1 + 1))]

/-- A run of speech frames with no open segment opens one spanning exactly
the run. -/
theorem segLoop_speech_none {p th : ℚ} (hp : th ≤ p) (ms : ℕ) :
    ∀ (n i : ℕ) (segs : List (ℕ × ℕ)) (sil : ℕ),
      segLoop th ms i ⟨segs, none, sil⟩ (List.replicate (n + 1) p) =
        ⟨segs, some (i, i + (n + 1)), 0⟩ := by
  intro n i segs sil
  rw [List.replicate_succ, segLoop, segStep]
  simp only [if_pos hp]
  cases n with
  | zero => simp [segLoop]
  | succ m =>
    rw [segLoop_speech_some hp ms m (i + 1) segs i (i + 1) 0]
    rw [(by omega : i + 1 + (m + 1) = i + (m + 1 + 1))]

/-- A run of non-speech frames too short to reach `minSilenceDurationMs`
only accumulates the silence counter: the open segment survives. -/
theorem segLoop_silence_short {q th : ℚ} (hq : q < th) (ms : ℕ) :
    ∀ (n c i : ℕ) (segs : List (ℕ × ℕ)) (se : ℕ × ℕ),
      frameMs (c + n) < ms →
      segLoop th ms i ⟨segs, some se, c⟩ (List.replicate n q) =
        ⟨segs, some se, c + n⟩ := by
  intro n
  induction n with
  | zero => intro c i segs se _; simp [segLoop]
  | succ m ih =>
    intro c i segs se hshort
    rw [List.replicate_succ, segLoop, segStep]
    have h1 : ¬ ms ≤ frameMs (c + 1) := by
      rw [frameMs_eq] at *
      omega
    simp only [not_le.mpr hq, if_false, if_neg h1]
    rw [ih (c + 1) (i + 1) segs se (by rw [frameMs_eq] at *; omega)]
    rw [(by omega : c + 1 + m = c + (m + 1))]

/-- A run of non-speech frames reaching `minSilenceDurationMs` closes the
open segment at its last speech frame. -/
theorem segLoop_silence_long {q th : ℚ} (hq : q < th) (ms : ℕ) :
    ∀ (n c i : ℕ) (segs : List (ℕ × ℕ)) (se : ℕ × ℕ),
      ms ≤ frameMs (c + (n + 1)) →
      segLoop th ms i ⟨segs, some se, c⟩ (List.replicate (n + 1) q) =
        ⟨segs ++ [se], none, 0⟩ := by
  intro n
  induction n with
  | zero =>
    intro c i segs se hlong
    rw [List.replicate_succ, segLoop, segStep]
    simp only [not_le.mpr hq, if_false, if_pos hlong]
    simp [segLoop]
  | succ m ih =>
    intro c i segs se hlong
    rw [List.replicate_succ, segLoop, segStep]
    by_cases h1 : ms ≤ frameMs (c + 1)
    · simp only [not_le.mpr hq, if_false, if_pos h1]
      exact segLoop_silence_none hq ms (m + 1) (i + 1) (segs ++ [se]) 0
    · simp only [not_le.mpr hq, if_false, if_neg h1]
      rw [ih (c + 1) (i + 1) segs se (by rw [frameMs_eq] at *; omega)]

end VadEngine

namespace VadEngine

/-- Well-formedness of the scan state at frame `i`: every recorded segment
(closed or open) is a proper frame range ending no later than `i`, and the
ranges are pairwise ordered and disjoint. -/
def segsOK (i : ℕ) (l : List (ℕ × ℕ)) : Prop :=
  (∀ se ∈ l, se.1 < se.2 ∧ se.2 ≤ i) ∧ l.Pairwise (fun a b => a.2 ≤ b.1)

/-- One scan step preserves well-formedness. -/
theorem segStep_good (th : ℚ) (ms : ℕ) (st : SegState) (i : ℕ) (p : ℚ)
    (h : segsOK i (st.segs ++ st.cur.toList)) :
    segsOK (i + 1)
      ((segStep th ms st i p).segs ++ (segStep th ms st i p).cur.toList) := by
  obtain ⟨segs, cur, sil⟩ := st
  obtain ⟨hb, hpw⟩ := h
  by_cases hp : th ≤ p
  · cases cur with
    | none =>
      simp only [Option.toList_none, List.append_nil] at hb hpw
      simp only [segStep, if_pos hp, Option.toList_some]
      constructor
      · intro se hse
        rcases List.mem_append.mp hse with hm | hm
        · have := hb se hm
          exact ⟨this.1, by omega⟩
        · rw [List.mem_singleton] at hm
          subst hm
          exact ⟨by omega, by omega⟩
      · rw [List.pairwise_append]
        refine ⟨hpw, List.pairwise_singleton _ _, ?_⟩
        intro a ha b hbm
        rw [List.mem_singleton] at hbm
        subst hbm
        exact (hb a ha).2
    | some se₀ =>
      simp only [Option.toList_some] at hb hpw
      simp only [segStep, if_pos hp, Option.toList_some]
      have hse₀ := hb se₀ (List.mem_append_right _ (List.mem_singleton.mpr rfl))
      obtain ⟨hpw1, _, hcross⟩ := List.pairwise_append.mp hpw
      constructor
      · intro se hse
        rcases List.mem_append.mp hse with hm | hm
        · have := hb se (List.mem_append_left _ hm)
          exact ⟨this.1, by omega⟩
        · rw [List.mem_singleton] at hm
          subst hm
          exact ⟨by simp; omega, by simp⟩
      · rw [List.pairwise_append]
        refine ⟨hpw1, List.pairwise_singleton _ _, ?_⟩
        intro a ha b hbm
        rw [List.mem_singleton] at hbm
        subst hbm
        exact hcross a ha se₀ (List.mem_singleton.mpr rfl)
  · cases cur with
    | none =>
      simp only [Option.toList_none, List.append_nil] at hb hpw
      simp only [segStep, if_neg hp, Option.toList_none, List.append_nil]
      exact ⟨fun se hse => ⟨(hb se hse).1, by have := (hb se hse).2; omega⟩, hpw⟩
    | some se₀ =>
      by_cases hsil : ms ≤ frameMs (sil + 1)
      · simp only [segStep, if_neg hp, if_pos hsil, Option.toList_none,
          List.append_nil, Option.toList_some] at *
        exact ⟨fun se hse => ⟨(hb se hse).1, by have := (hb se hse).2; omega⟩, hpw⟩
      · simp only [segStep, if_neg hp, if_neg hsil, Option.toList_some] at *
        exact ⟨fun se hse => ⟨(hb se hse).1, by have := (hb se hse).2; omega⟩, hpw⟩

/-- The whole scan preserves well-formedness. -/
theorem segLoop_good (th : ℚ) (ms : ℕ) :
    ∀ (probs : List ℚ) (i : ℕ) (st : SegState),
      segsOK i (st.segs ++ st.cur.toList) →
      segsOK (i + probs.length)
        ((segLoop th ms i st probs).segs ++ (segLoop th ms i st probs).cur.toList) := by
  intro probs
  induction probs with
  | nil => intro i st h; simpa [segLoop] using h
  | cons p ps ih =>
    intro i st h
    rw [segLoop]
    have := ih (i + 1) (segStep th ms st i p) (segStep_good th ms st i p h)
    simpa [(by omega : i + 1 + ps.length = i + (ps.length + 1))] using this

end VadEngine

namespace VadEngine

/-- Frame-to-seconds conversion is monotone. -/
theorem frameSec_le {i j : ℕ} (h : i ≤ j) : frameSec i ≤ frameSec j := by
  unfold frameSec
  have h' : (i : ℚ) ≤ j := by exact_mod_cast h
  gcongr

/-- Frame-to-seconds conversion is strictly monotone. -/
theorem frameSec_lt {i j : ℕ} (h : i < j) : frameSec i < frameSec j := by
  unfold frameSec
  rw [div_lt_div_iff_of_pos_right (by norm_num [SAMPLE_RATE])]
  have h' : (i : ℚ) < j := by exact_mod_cast h
  have hf : (0 : ℚ) < FRAME_SIZE := by norm_num [FRAME_SIZE]
  exact mul_lt_mul_of_pos_right h' hf

/-- Every segment list produced from a probability trace consists of proper,
pairwise-ordered, non-overlapping frame ranges converted to seconds. -/
theorem detectFromProbs_ordered (probs : List ℚ) (th : ℚ)
    (minSil minSp : ℕ) :
    (∀ sg ∈ detectFromProbs probs th minSil minSp,
        sg.startTime < sg.endTime ∧
        ∃ a b : ℕ, a < b ∧ sg = ⟨frameSec a, frameSec b⟩) ∧
    (detectFromProbs probs th minSil minSp).Pairwise
      (fun x y => x.endTime ≤ y.startTime) := by
  have hgood : segsOK probs.length (provisionalSegs th minSil probs) := by
    have h0 : segsOK 0 ((⟨[], none, 0⟩ : SegState).segs ++
        (⟨[], none, 0⟩ : SegState).cur.toList) := by
      constructor
      · intro se hse
        simp at hse
      · simp
    simpa [provisionalSegs] using segLoop_good th minSil probs 0 ⟨[], none, 0⟩ h0
  obtain ⟨hb, hpw⟩ := hgood
  have hsub : ((provisionalSegs th minSil probs).filter
      (fun se => minSp ≤ frameMs (se.2 - se.1))).Sublist
      (provisionalSegs th minSil probs) := List.filter_sublist _
  constructor
  · intro sg hsg
    rw [detectFromProbs, List.mem_map] at hsg
    obtain ⟨se, hse, rfl⟩ := hsg
    have hmem := hsub.mem hse
    have := hb se hmem
    exact ⟨frameSec_lt this.1, se.1, se.2, this.1, rfl⟩
  · rw [detectFromProbs]
    refine List.Pairwise.map _ (fun a b hab => ?_) (hpw.sublist hsub)
    exact frameSec_le hab

end VadEngine

namespace MelSpectrogram

/-- Configuration of the extractor.  The analysis parameters carry the
Parakeet v3 defaults (fftSize 512, hopLength 160, melBins 128 at 16 kHz);
the transcendental ingredients of the pipeline — the window coefficients,
the real-FFT twiddle factors, the mel-scale filter corner positions and the
log transform — are opaque rational-valued parameters, since their exact
values are irrational and do not affect the shape or sign properties
verified here. -/
structure MelConfig : Type where
  fftSize : ℕ
  hopLength : ℕ
  melBins : ℕ
  win : ℕ → ℚ
  cosT : ℕ → ℕ → ℚ
  sinT : ℕ → ℕ → ℚ
  pts : ℕ → ℚ
  logf : ℚ → ℚ
  eps : ℚ

/-- Modelled from the spec: the frame count of `MelSpectrogram::compute`
(implementation not under src/).  Windows of `fftSize` samples advance by
`hopLength`; the final partial window is zero-padded so the last real
sample is covered, and no window past it is produced.  Empty input gives
empty output. -/
def melNumFrames (fftSize hop n : ℕ) : ℕ :=
  if n = 0 then 0 else (n - fftSize + hop - 1) / hop + 1

/-- The padded sample count: the input extended with zeros to the end of
the last analysis window. -/
def paddedLen (fftSize hop n : ℕ) : ℕ :=
  fftSize + hop * ((n - fftSize + hop - 1) / hop)

/-- Sample lookup with zero padding past the end of the input. -/
def sampleAt (samples : List ℚ) (i : ℕ) : ℚ := samples.getD i 0

/-- Real part of FFT bin `k` of the windowed frame starting at `start`. -/
def rePart (cfg : MelConfig) (samples : List ℚ) (start k : ℕ) : ℚ :=
  ((List.range cfg.fftSize).map
    (fun j => cfg.win j * sampleAt samples (start + j) * cfg.cosT j k)).sum

/-- Imaginary part of FFT bin `k` of the windowed frame at `start`. -/
def imPart (cfg : MelConfig) (samples : List ℚ) (start k : ℕ) : ℚ :=
  ((List.range cfg.fftSize).map
    (fun j => cfg.win j * sampleAt samples (start + j) * cfg.sinT j k)).sum

/-- Power spectrum: squared magnitude of FFT bin `k`. -/
def powSpec (cfg : MelConfig) (samples : List ℚ) (start k : ℕ) : ℚ :=
  rePart cfg samples start k ^ 2 + imPart cfg samples start k ^ 2

/-- Triangular mel filter weight of filter `m` at FFT bin `k`, with corner
positions `cfg.pts m ≤ cfg.pts (m+1) ≤ cfg.pts (m+2)`: the standard
rising/falling ramp clamped at zero. -/
def triWeight (cfg : MelConfig) (m k : ℕ) : ℚ :=
  max 0 (min (((k : ℚ) - cfg.pts m) / (cfg.pts (m + 1) - cfg.pts m))
             ((cfg.pts (m + 2) - (k : ℚ)) / (cfg.pts (m + 2) - cfg.pts (m + 1))))

/-- Filter-weighted energy of mel bin `m` for the frame at time `t`. -/
def melEnergy (cfg : MelConfig) (samples : List ℚ) (t m : ℕ) : ℚ :=
  ((List.range (cfg.fftSize / 2 + 1)).map
    (fun k => triWeight cfg m k * powSpec cfg samples (t * cfg.hopLength) k)).sum

/-- One output value: the stabilised log of the mel energy. -/
def melValue (cfg : MelConfig) (samples : List ℚ) (t m : ℕ) : ℚ :=
  cfg.logf (melEnergy cfg samples t m + cfg.eps)

/-- One output frame: the `melBins` mel values of time step `t`. -/
def melFrame (cfg : MelConfig) (samples : List ℚ) (t : ℕ) : List ℚ :=
  (List.range cfg.melBins).map (melValue cfg samples t)

/-- Modelled from the spec: `MelSpectrogram::compute` (implementation not
under src/) at the target sample rate — window, FFT power spectrum,
triangular mel filter bank, `log(energy + ε)`, emitted as the flattened
`[numFrames, melBins]` sequence in frame-major order.  (Resampling of
non-16 kHz input happens before this pipeline and is outside the claims
verified here.) -/
def compute (cfg : MelConfig) (samples : List ℚ) : List ℚ :=
  ((List.range (melNumFrames cfg.fftSize cfg.hopLength samples.length)).map
    (melFrame cfg samples)).flatten

end MelSpectrogram

namespace MelSpectrogram

/-- Indexing into a flattened list of equal-length rows: position
`t * mb + m` holds entry `m` of row `t`. -/
theorem getD_flatten_const (mb : ℕ) :
    ∀ (fs : List (List ℚ)), (∀ f ∈ fs, f.length = mb) →
    ∀ (t m : ℕ), t < fs.length → m < mb →
      fs.flatten.getD (t * mb + m) 0 = (fs.getD t []).getD m 0 := by
  intro fs
  induction fs with
  | nil =>
    intro _ t m ht _
    simp at ht
  | cons f fs ih =>
    intro hlen t m ht hm
    have hf : f.length = mb := hlen f (by simp)
    cases t with
    | zero =>
      rw [List.flatten_cons]
      have hmf : m < f.length := by omega
      simp only [Nat.zero_mul, Nat.zero_add]
      rw [List.getD_eq_getElem?_getD, List.getElem?_append_left hmf,
        ← List.getD_eq_getElem?_getD]
      simp [List.getD]
    | succ t' =>
      rw [List.flatten_cons]
      have hidx : t' * mb + m + f.length = (t' + 1) * mb + m := by
        rw [hf]; ring
      rw [List.getD_eq_getElem?_getD, ← hidx, Nat.add_comm (t' * mb + m) f.length,
        List.getElem?_append_right (by omega), Nat.add_sub_cancel_left,
        ← List.getD_eq_getElem?_getD]
      have := ih (fun g hg => hlen g (by simp [hg])) t' m (by simpa using ht) hm
      rw [this]
      simp [List.getD]

/-- The frame count satisfies the spec's padded-count formula, and the
padding covers the input. -/
theorem melNumFrames_formula (fftSize hop n : ℕ) (hh : 1 ≤ hop) (hn : n ≠ 0) :
    melNumFrames fftSize hop n = (paddedLen fftSize hop n - fftSize) / hop + 1 ∧
    n ≤ paddedLen fftSize hop n := by
  unfold melNumFrames paddedLen
  rw [if_neg hn]
  constructor
  · rw [Nat.add_sub_cancel_left, Nat.mul_div_cancel_left _ (by omega : 0 < hop)]
  · have h := Nat.div_add_mod (n - fftSize + hop - 1) hop
    have hr : (n - fftSize + hop - 1) % hop < hop := Nat.mod_lt _ (by omega)
    generalize hQ : hop * ((n - fftSize + hop - 1) / hop) = Q at h ⊢
    omega

end MelSpectrogram

open TransducerDecoder in
/-- C1: for every encoder output and every pair of external decoder/joint
functions, the greedy decode terminates — it completes at its own
termination condition within the engine's step budget, never exhausting it
— invokes the joint function at most `N × maxSymbolsPerFrame` times, and
any returned token sequence `T` satisfies
`0 ≤ len T ≤ N × maxSymbolsPerFrame`, with `N` the effective frame count. -/
theorem C1_decode_termination_bound {P D : Type}
    (decoderFn : ℕ → D → Except ModelInferenceError (P × D))
    (jointFn : List ℚ → P → Except ModelInferenceError (List ℚ × List ℚ))
    (frames : List (List ℚ)) (durs : List ℕ) (blankId maxSyms numFrames : ℕ)
    (d0 : D) (hM : 1 ≤ maxSyms) :
    (decodeRun decoderFn jointFn frames durs blankId maxSyms numFrames d0).done = true ∧
    (decodeRun decoderFn jointFn frames durs blankId maxSyms numFrames d0).calls
        ≤ effectiveN numFrames frames * maxSyms ∧
    (decodeRun decoderFn jointFn frames durs blankId maxSyms numFrames d0).tokens.length
        ≤ effectiveN numFrames frames * maxSyms ∧
    ∀ T, decode decoderFn jointFn frames durs blankId maxSyms numFrames d0 = .ok T →
      0 ≤ T.length ∧ T.length ≤ effectiveN numFrames frames * maxSyms := by
  have hb := decodeLoop_bound decoderFn jointFn frames durs blankId maxSyms
    (effectiveN numFrames frames)
    (decodeFuel maxSyms (effectiveN numFrames frames)) 0 d0 blankId 0 [] 0
    (by omega) (Or.inl rfl)
  rw [Nat.sub_zero] at hb
  obtain ⟨hb1, hb2⟩ := hb
  have hdone := decodeLoop_done decoderFn jointFn frames durs blankId maxSyms
    (effectiveN numFrames frames)
    (decodeFuel maxSyms (effectiveN numFrames frames)) 0 d0 blankId 0 [] 0
    (by
      have hexp : effectiveN numFrames frames * (maxSyms + 1)
          = effectiveN numFrames frames * maxSyms + effectiveN numFrames frames := by
        ring
      rw [Nat.sub_zero, decodeFuel]
      omega)
    (by omega)
  rw [decodeRun]
  refine ⟨hdone, by omega, by simpa using hb2, ?_⟩
  intro T hT
  have := (decode_err_cases decoderFn jointFn frames durs blankId maxSyms
    numFrames d0 ModelInferenceError.mk).2 T hT
  rw [this.2, decodeRun]
  constructor
  · omega
  · simpa using hb2

open TransducerDecoder in
/-- C1 witness: a concrete two-frame decode with a joint function that
always emits token 1 completes and stays within the
`N × maxSymbolsPerFrame` bounds. -/
theorem C1_decode_termination_bound_witness :
    (decodeRun (P := Unit) (D := Unit) (fun _ _ => .ok ((), ()))
        (fun _ _ => .ok ([0, 1], [])) [[0], [0]] [] 0 2 0 ()).done = true ∧
    (decodeRun (P := Unit) (D := Unit) (fun _ _ => .ok ((), ()))
        (fun _ _ => .ok ([0, 1], [])) [[0], [0]] [] 0 2 0 ()).calls
      ≤ effectiveN 0 [[0], [0]] * 2 ∧
    (decodeRun (P := Unit) (D := Unit) (fun _ _ => .ok ((), ()))
        (fun _ _ => .ok ([0, 1], [])) [[0], [0]] [] 0 2 0 ()).tokens.length
      ≤ effectiveN 0 [[0], [0]] * 2 ∧
    ∀ T, decode (P := Unit) (D := Unit) (fun _ _ => .ok ((), ()))
        (fun _ _ => .ok ([0, 1], [])) [[0], [0]] [] 0 2 0 () = .ok T →
      0 ≤ T.length ∧ T.length ≤ effectiveN 0 [[0], [0]] * 2 :=
  C1_decode_termination_bound (fun _ _ => .ok ((), ()))
    (fun _ _ => .ok ([0, 1], [])) [[0], [0]] [] 0 2 0 () (by norm_num)

open TransducerDecoder in
/-- C2: if the joint function always selects the blank token (and neither
external function fails), decode returns the empty token sequence, the
time index advances past all `N` frames, and the last-emitted token and
the recurrent decoder state are never updated. -/
theorem C2_blank_only_empty {P D : Type}
    (decoderFn : ℕ → D → Except ModelInferenceError (P × D))
    (jointFn : List ℚ → P → Except ModelInferenceError (List ℚ × List ℚ))
    (frames : List (List ℚ)) (durs : List ℕ) (blankId maxSyms numFrames : ℕ)
    (d0 : D)
    (hdec : ∀ y d, ∃ pd, decoderFn y d = .ok pd)
    (hjoint : ∀ h p, ∃ lg, jointFn h p = .ok lg ∧ argmaxIdx lg.1 = blankId) :
    decode decoderFn jointFn frames durs blankId maxSyms numFrames d0 = .ok [] ∧
    (decodeRun decoderFn jointFn frames durs blankId maxSyms numFrames d0).tokens = [] ∧
    (decodeRun decoderFn jointFn frames durs blankId maxSyms numFrames d0).yFinal = blankId ∧
    (decodeRun decoderFn jointFn frames durs blankId maxSyms numFrames d0).dFinal = d0 ∧
    effectiveN numFrames frames
      ≤ (decodeRun decoderFn jointFn frames durs blankId maxSyms numFrames d0).tFinal := by
  obtain ⟨t', calls', heq, hge⟩ := decodeLoop_blankOnly decoderFn jointFn frames durs
    blankId maxSyms (effectiveN numFrames frames) hdec hjoint
    (decodeFuel maxSyms (effectiveN numFrames frames)) 0 d0 blankId 0 [] 0
    (by rw [decodeFuel]; omega)
  have hrun : decodeRun decoderFn jointFn frames durs blankId maxSyms numFrames d0 =
      ⟨none, [], calls', t', d0, blankId, true⟩ := by
    rw [decodeRun, heq]
  refine ⟨?_, by rw [hrun], by rw [hrun], by rw [hrun], by rw [hrun]; exact hge⟩
  rw [decode, hrun]

open TransducerDecoder in
/-- C2 witness: with blank id 2 and a scripted joint function whose argmax
is always 2, a three-frame decode returns the empty sequence and keeps the
initial decoder state. -/
theorem C2_blank_only_empty_witness :
    decode (P := Unit) (D := Unit) (fun _ _ => .ok ((), ()))
        (fun _ _ => .ok ([0, 0, 1], [])) [[0], [0], [0]] [] 2 10 0 () = .ok [] ∧
    (decodeRun (P := Unit) (D := Unit) (fun _ _ => .ok ((), ()))
        (fun _ _ => .ok ([0, 0, 1], [])) [[0], [0], [0]] [] 2 10 0 ()).tokens = [] ∧
    (decodeRun (P := Unit) (D := Unit) (fun _ _ => .ok ((), ()))
        (fun _ _ => .ok ([0, 0, 1], [])) [[0], [0], [0]] [] 2 10 0 ()).yFinal = 2 ∧
    (decodeRun (P := Unit) (D := Unit) (fun _ _ => .ok ((), ()))
        (fun _ _ => .ok ([0, 0, 1], [])) [[0], [0], [0]] [] 2 10 0 ()).dFinal = () ∧
    effectiveN 0 [[0], [0], [0]]
      ≤ (decodeRun (P := Unit) (D := Unit) (fun _ _ => .ok ((), ()))
        (fun _ _ => .ok ([0, 0, 1], [])) [[0], [0], [0]] [] 2 10 0 ()).tFinal :=
  C2_blank_only_empty (fun _ _ => .ok ((), ())) (fun _ _ => .ok ([0, 0, 1], []))
    [[0], [0], [0]] [] 2 10 0 ()
    (fun _ _ => ⟨((), ()), rfl⟩)
    (fun _ _ => ⟨([0, 0, 1], []), rfl, by decide⟩)

open TransducerDecoder in
/-- C6: a model-execution failure of the external decoder or joint function
at any reachable step aborts the decode immediately with the error
recorded, the surfaced result is the `ModelInferenceError` (never a token
list), and a token list is surfaced only for error-free runs — the
partially decoded tokens are discarded. -/
theorem C6_error_discards_tokens {P D : Type}
    (decoderFn : ℕ → D → Except ModelInferenceError (P × D))
    (jointFn : List ℚ → P → Except ModelInferenceError (List ℚ × List ℚ))
    (frames : List (List ℚ)) (durs : List ℕ)
    (blankId maxSyms N fuel t : ℕ) (d : D) (y syms : ℕ) (T : List ℕ) (calls : ℕ)
    (numFrames : ℕ) (d0 : D) (e : ModelInferenceError) (ht : t < N) :
    ((decodeRun decoderFn jointFn frames durs blankId maxSyms numFrames d0).err = some e →
      decode decoderFn jointFn frames durs blankId maxSyms numFrames d0 = .error e) ∧
    (∀ T', decode decoderFn jointFn frames durs blankId maxSyms numFrames d0 = .ok T' →
      (decodeRun decoderFn jointFn frames durs blankId maxSyms numFrames d0).err = none) ∧
    (decoderFn y d = .error e →
      decodeLoop decoderFn jointFn frames durs blankId maxSyms N
        (fuel + 1) t d y syms T calls = ⟨some e, T, calls, t, d, y, true⟩) ∧
    (∀ pd, decoderFn y d = .ok pd →
      jointFn (frames.getD t []) pd.1 = .error e →
      decodeLoop decoderFn jointFn frames durs blankId maxSyms N
        (fuel + 1) t d y syms T calls = ⟨some e, T, calls + 1, t, d, y, true⟩) := by
  have hc := decode_err_cases decoderFn jointFn frames durs blankId maxSyms numFrames d0 e
  have hs := decodeLoop_error_step decoderFn jointFn frames durs blankId maxSyms N
    fuel t d y syms T calls e ht
  exact ⟨hc.1, fun T' hT' => ((hc.2 T' hT').1), hs.1, hs.2⟩

open TransducerDecoder in
/-- C6 witness: with a joint function that fails, the loop at `t = 0` with
a nonempty partial token list aborts with the error and frozen state. -/
theorem C6_error_discards_tokens_witness :
    decodeLoop (P := Unit) (D := Unit) (fun _ _ => .ok ((), ()))
        (fun _ _ => .error .mk) [[0]] [] 0 2 1 8 0 () 0 0 [5] 3
      = ⟨some .mk, [5], 4, 0, (), 0, true⟩ :=
  (C6_error_discards_tokens (fun _ _ => .ok ((), ())) (fun _ _ => .error .mk)
    [[0]] [] 0 2 1 7 0 () 0 0 [5] 3 0 () ModelInferenceError.mk
    (by norm_num)).2.2.2 ((), ()) rfl rfl

open VadEngine in
/-- C3: in the segment detector, a run of consecutive non-speech frames of
total duration strictly below `minSilenceDurationMs` is absorbed as
internal silence — the surrounding speech merges into one segment — while
a non-speech run of duration at least `minSilenceDurationMs` ends the
current segment, yielding two segments. -/
theorem C3_silence_hysteresis (p q th : ℚ) (s1 K s2 minSil minSp : ℕ)
    (hp : th ≤ p) (hq : q < th)
    (hsp1 : minSp ≤ frameMs (s1 + 1)) (hsp2 : minSp ≤ frameMs (s2 + 1)) :
    (frameMs K < minSil →
      detectFromProbs
          (List.replicate (s1 + 1) p ++ List.replicate K q ++ List.replicate (s2 + 1) p)
          th minSil minSp
        = [⟨frameSec 0, frameSec (s1 + 1 + K + (s2 + 1))⟩]) ∧
    (minSil ≤ frameMs K → 1 ≤ K →
      detectFromProbs
          (List.replicate (s1 + 1) p ++ List.replicate K q ++ List.replicate (s2 + 1) p)
          th minSil minSp
        = [⟨frameSec 0, frameSec (s1 + 1)⟩,
           ⟨frameSec (s1 + 1 + K), frameSec (s1 + 1 + K + (s2 + 1))⟩]) := by
  have hlen1 : (List.replicate (s1 + 1) p).length = s1 + 1 := List.length_replicate _ _
  have h1 : segLoop th minSil 0 ⟨[], none, 0⟩ (List.replicate (s1 + 1) p)
      = ⟨[], some (0, s1 + 1), 0⟩ := by
    simpa using segLoop_speech_none hp minSil s1 0 [] 0
  constructor
  · intro hshort
    have h2 : segLoop th minSil (s1 + 1) (⟨[], some (0, s1 + 1), 0⟩ : SegState)
        (List.replicate K q) = ⟨[], some (0, s1 + 1), K⟩ := by
      simpa using segLoop_silence_short hq minSil K 0 (s1 + 1) [] (0, s1 + 1)
        (by simpa using hshort)
    have h3 : segLoop th minSil (s1 + 1 + K) (⟨[], some (0, s1 + 1), K⟩ : SegState)
        (List.replicate (s2 + 1) p) = ⟨[], some (0, s1 + 1 + K + (s2 + 1)), 0⟩ := by
      simpa using segLoop_speech_some hp minSil s2 (s1 + 1 + K) [] 0 (s1 + 1) K
    have hfinal : segLoop th minSil 0 ⟨[], none, 0⟩
        (List.replicate (s1 + 1) p ++ List.replicate K q ++ List.replicate (s2 + 1) p)
        = ⟨[], some (0, s1 + 1 + K + (s2 + 1)), 0⟩ := by
      rw [segLoop_append, segLoop_append]
      simp only [hlen1, List.length_append, List.length_replicate, Nat.zero_add]
      rw [h1, h2, h3]
    have hkeep : minSp ≤ frameMs (s1 + 1 + K + (s2 + 1)) := by
      rw [frameMs_eq] at *
      omega
    rw [detectFromProbs, provisionalSegs, hfinal]
    simp [List.filter, hkeep]
  · intro hlong hK
    obtain ⟨K', rfl⟩ : ∃ K', K = K' + 1 := ⟨K - 1, by omega⟩
    have h2 : segLoop th minSil (s1 + 1) (⟨[], some (0, s1 + 1), 0⟩ : SegState)
        (List.replicate (K' + 1) q) = ⟨[(0, s1 + 1)], none, 0⟩ := by
      simpa using segLoop_silence_long hq minSil K' 0 (s1 + 1) [] (0, s1 + 1)
        (by simpa using hlong)
    have h3 : segLoop th minSil (s1 + 1 + (K' + 1)) (⟨[(0, s1 + 1)], none, 0⟩ : SegState)
        (List.replicate (s2 + 1) p)
        = ⟨[(0, s1 + 1)], some (s1 + 1 + (K' + 1), s1 + 1 + (K' + 1) + (s2 + 1)), 0⟩ := by
      simpa using segLoop_speech_none hp minSil s2 (s1 + 1 + (K' + 1)) [(0, s1 + 1)] 0
    have hfinal : segLoop th minSil 0 ⟨[], none, 0⟩
        (List.replicate (s1 + 1) p ++ List.replicate (K' + 1) q ++ List.replicate (s2 + 1) p)
        = ⟨[(0, s1 + 1)], some (s1 + 1 + (K' + 1), s1 + 1 + (K' + 1) + (s2 + 1)), 0⟩ := by
      rw [segLoop_append, segLoop_append]
      simp only [hlen1, List.length_append, List.length_replicate, Nat.zero_add]
      rw [h1, h2, h3]
    rw [detectFromProbs, provisionalSegs, hfinal]
    simp [List.filter, hsp1, hsp2]

open VadEngine in
/-- C3 witness: the spec's synthetic trace `[0.9]*10 ++ [0.1]*K ++ [0.9]*10`
with the default thresholds merges into one segment for `K = 5`
(180 ms < 300 ms) and splits into two segments for `K = 9`
(324 ms ≥ 300 ms). -/
theorem C3_silence_hysteresis_witness :
    detectFromProbs
        (List.replicate 10 (9 / 10 : ℚ) ++ List.replicate 5 (1 / 10 : ℚ) ++
          List.replicate 10 (9 / 10 : ℚ)) (1 / 2) 300 250
      = [⟨frameSec 0, frameSec 25⟩] ∧
    detectFromProbs
        (List.replicate 10 (9 / 10 : ℚ) ++ List.replicate 9 (1 / 10 : ℚ) ++
          List.replicate 10 (9 / 10 : ℚ)) (1 / 2) 300 250
      = [⟨frameSec 0, frameSec 10⟩, ⟨frameSec 19, frameSec 29⟩] :=
  ⟨(C3_silence_hysteresis (9 / 10) (1 / 10) (1 / 2) 9 5 9 300 250
      (by norm_num) (by norm_num) (by decide) (by decide)).1 (by decide),
   (C3_silence_hysteresis (9 / 10) (1 / 10) (1 / 2) 9 9 9 300 250
      (by norm_num) (by norm_num) (by decide) (by decide)).2 (by decide) (by decide)⟩

open VadEngine in
/-- C5: every emitted segment has duration at least `minSpeechDurationMs`,
and an isolated speech run strictly shorter than that threshold —
surrounded by silence — is dropped entirely: zero segments are emitted. -/
theorem C5_min_speech_filter (p q th : ℚ) (a m b minSil minSp : ℕ)
    (hp : th ≤ p) (hq : q < th) (hshort : frameMs (m + 1) < minSp) :
    detectFromProbs
        (List.replicate a q ++ List.replicate (m + 1) p ++ List.replicate b q)
        th minSil minSp = [] ∧
    ∀ (probs : List ℚ) (sg : SpeechSegment),
      sg ∈ detectFromProbs probs th minSil minSp →
      ∃ i j : ℕ, sg = ⟨frameSec i, frameSec j⟩ ∧ minSp ≤ frameMs (j - i) := by
  constructor
  · have h1 : segLoop th minSil 0 ⟨[], none, 0⟩ (List.replicate a q)
        = ⟨[], none, 0⟩ := segLoop_silence_none hq minSil a 0 [] 0
    have h2 : segLoop th minSil a (⟨[], none, 0⟩ : SegState)
        (List.replicate (m + 1) p) = ⟨[], some (a, a + (m + 1)), 0⟩ :=
      segLoop_speech_none hp minSil m a [] 0
    have hdrop : ¬ minSp ≤ frameMs (m + 1) := not_le.mpr hshort
    have hfinal : ∃ st : SegState,
        segLoop th minSil 0 ⟨[], none, 0⟩
          (List.replicate a q ++ List.replicate (m + 1) p ++ List.replicate b q) = st ∧
        st.segs ++ st.cur.toList = [(a, a + (m + 1))] := by
      rw [segLoop_append, segLoop_append]
      simp only [List.length_append, List.length_replicate, Nat.zero_add]
      rw [h1, h2]
      cases b with
      | zero => exact ⟨_, rfl, by simp [segLoop]⟩
      | succ b' =>
        by_cases hb : minSil ≤ frameMs (b' + 1)
        · rw [segLoop_silence_long hq minSil b' 0 _ [] (a, a + (m + 1))
            (by simpa using hb)]
          exact ⟨_, rfl, by simp⟩
        · rw [segLoop_silence_short hq minSil (b' + 1) 0 _ [] (a, a + (m + 1))
            (by simpa using hb)]
          exact ⟨_, rfl, by simp⟩
    obtain ⟨st, hst, hsegs⟩ := hfinal
    rw [detectFromProbs, provisionalSegs, hst, hsegs]
    simp [List.filter, hdrop]
  · intro probs sg hsg
    rw [detectFromProbs, List.mem_map] at hsg
    obtain ⟨se, hse, rfl⟩ := hsg
    rw [List.mem_filter] at hse
    exact ⟨se.1, se.2, rfl, of_decide_eq_true hse.2⟩

open VadEngine in
/-- C5 witness: a single above-threshold frame (36 ms < 250 ms) surrounded
by ten silence frames on each side yields no segments; and the emitted
segments of an arbitrary trace all meet the duration floor. -/
theorem C5_min_speech_filter_witness :
    detectFromProbs
        (List.replicate 10 (1 / 10 : ℚ) ++ List.replicate 1 (9 / 10 : ℚ) ++
          List.replicate 10 (1 / 10 : ℚ)) (1 / 2) 300 250 = [] :=
  (C5_min_speech_filter (9 / 10) (1 / 10) (1 / 2) 10 0 10 300 250
    (by norm_num) (by norm_num) (by decide)).1

open VadEngine in
/-- C7: every segment list returned by one detection run consists of
segments with `startTime < endTime`, obtained from frame indices via
`FRAME_SIZE / SAMPLE_RATE`, pairwise non-overlapping and in increasing
time order. -/
theorem C7_segments_ordered
    (vadFn : List ℚ → List ℚ → List ℚ → ℚ × List ℚ × List ℚ)
    (samples : List ℚ) (th : ℚ) (minSil minSp : ℕ) :
    (∀ sg ∈ detectSpeechSegments vadFn samples th minSil minSp,
        sg.startTime < sg.endTime ∧
        ∃ a b : ℕ, a < b ∧ sg = ⟨frameSec a, frameSec b⟩) ∧
    (detectSpeechSegments vadFn samples th minSil minSp).Pairwise
      (fun x y => x.endTime ≤ y.startTime) := by
  rw [detectSpeechSegments]
  exact detectFromProbs_ordered _ th minSil minSp

open VadEngine in
/-- C9: `resetState` is idempotent, zeroes both the hidden and the cell
vector, and a subsequent `processFrame` depends only on the zeroed state
and the given input frame. -/
theorem C9_resetState_idempotent
    (vadFn : List ℚ → List ℚ → List ℚ → ℚ × List ℚ × List ℚ)
    (s s' : VadState) (buf : List ℚ) :
    resetState (resetState s) = resetState s ∧
    (resetState s).hidden = List.replicate STATE_SIZE 0 ∧
    (resetState s).cell = List.replicate STATE_SIZE 0 ∧
    processFrame vadFn (resetState s) buf = processFrame vadFn (resetState s') buf :=
  ⟨rfl, rfl, rfl, rfl⟩

open VadEngine in
/-- C10: `processFrame` reads exactly the FRAME_SIZE = 576 leading samples
of the caller's buffer: its result depends only on sample indices
`0 … 575`, and a buffer holding at least one full 576-sample frame is
interchangeable with its first 576 samples. -/
theorem C10_processFrame_bounded_read
    (vadFn : List ℚ → List ℚ → List ℚ → ℚ × List ℚ × List ℚ)
    (s : VadState) (buf buf2 : List ℚ) :
    ((∀ i, i < FRAME_SIZE → buf.getD i 0 = buf2.getD i 0) →
      processFrame vadFn s buf = processFrame vadFn s buf2) ∧
    (FRAME_SIZE ≤ buf.length → frameOf buf = buf.take FRAME_SIZE) ∧
    (FRAME_SIZE ≤ buf.length →
      processFrame vadFn s buf = processFrame vadFn s (buf.take FRAME_SIZE)) := by
  have hext : ∀ (b1 b2 : List ℚ), (∀ i, i < FRAME_SIZE → b1.getD i 0 = b2.getD i 0) →
      frameOf b1 = frameOf b2 := by
    intro b1 b2 hi
    unfold frameOf
    refine List.map_congr_left ?_
    intro i hmem
    exact hi i (List.mem_range.mp hmem)
  have htake : ∀ (b : List ℚ), FRAME_SIZE ≤ b.length → frameOf b = b.take FRAME_SIZE := by
    intro b hb
    apply List.ext_getElem
    · simp [frameOf]
      omega
    · intro i h1 h2
      simp only [frameOf, List.getElem_map, List.getElem_range, List.getElem_take]
      have hi : i < FRAME_SIZE := by simpa [frameOf] using h1
      exact List.getD_eq_getElem b 0 (by omega)
  refine ⟨?_, htake buf, ?_⟩
  · intro hi
    unfold processFrame
    rw [hext buf buf2 hi]
  · intro hb
    unfold processFrame
    rw [htake buf hb, htake (buf.take FRAME_SIZE) (by simp [List.length_take]; omega)]
    rw [List.take_take, min_self]

open VadEngine in
/-- C10 witness: a buffer of exactly one 576-sample frame is sufficient —
the frame the engine reads from it is the buffer itself. -/
theorem C10_processFrame_bounded_read_witness :
    frameOf (List.replicate 576 (0 : ℚ))
      = (List.replicate 576 (0 : ℚ)).take FRAME_SIZE :=
  (C10_processFrame_bounded_read (fun f h c => (0, h, c)) zeroState
    (List.replicate 576 (0 : ℚ)) []).2.1
    (by rw [List.length_replicate]; norm_num [FRAME_SIZE])

namespace MelSpectrogram

/-- Sum of a constant over a list. -/
theorem sum_map_const_nat {α : Type} (l : List α) (c : ℕ) :
    (l.map (fun _ => c)).sum = l.length * c := by
  induction l with
  | nil => simp
  | cons x xs ih => simp [ih, Nat.succ_mul, Nat.add_comm]

/-- Mel energies are nonnegative: the triangular filter weights are clamped
at zero and the power spectrum is a sum of squares. -/
theorem melEnergy_nonneg (cfg : MelConfig) (samples : List ℚ) (t m : ℕ) :
    0 ≤ melEnergy cfg samples t m := by
  unfold melEnergy
  apply List.sum_nonneg
  intro x hx
  rw [List.mem_map] at hx
  obtain ⟨k, _, rfl⟩ := hx
  apply mul_nonneg
  · exact le_max_left 0 _
  · unfold powSpec
    positivity

end MelSpectrogram

open MelSpectrogram in
/-- C4: `compute` emits the flattened `[numFrames, melBins]` sequence in
frame-major order — total length `numFrames × melBins` and position
`t × melBins + m` holding mel value `m` of frame `t` — with
`numFrames = (paddedLen − fftSize) / hopLength + 1` under the
implementation's padding convention (final window zero-padded to cover the
last real sample); for a 16000-sample input at 16 kHz with fftSize 512 and
hop 160 this gives exactly 98 frames, within the spec's 97 ± 1. -/
theorem C4_compute_shape (cfg : MelConfig) (samples : List ℚ) (t m : ℕ)
    (hh : 1 ≤ cfg.hopLength) :
    (compute cfg samples).length
        = melNumFrames cfg.fftSize cfg.hopLength samples.length * cfg.melBins ∧
    (samples.length ≠ 0 →
      melNumFrames cfg.fftSize cfg.hopLength samples.length
        = (paddedLen cfg.fftSize cfg.hopLength samples.length - cfg.fftSize) /
            cfg.hopLength + 1 ∧
      samples.length ≤ paddedLen cfg.fftSize cfg.hopLength samples.length) ∧
    (t < melNumFrames cfg.fftSize cfg.hopLength samples.length → m < cfg.melBins →
      (compute cfg samples).getD (t * cfg.melBins + m) 0 = melValue cfg samples t m) ∧
    melNumFrames 512 160 16000 = 98 ∧
    97 - 1 ≤ melNumFrames 512 160 16000 ∧ melNumFrames 512 160 16000 ≤ 97 + 1 := by
  refine ⟨?_, ?_, ?_, by decide, by decide, by decide⟩
  · rw [compute, List.length_flatten, List.map_map]
    have : (List.length ∘ melFrame cfg samples) = fun _ => cfg.melBins := by
      funext u
      simp [melFrame]
    rw [this, sum_map_const_nat, List.length_range]
  · intro hn
    exact melNumFrames_formula cfg.fftSize cfg.hopLength samples.length hh hn
  · intro htf hm
    rw [compute]
    rw [getD_flatten_const cfg.melBins _ ?_ t m ?_ hm]
    · have hget : (List.map (melFrame cfg samples)
          (List.range (melNumFrames cfg.fftSize cfg.hopLength samples.length))).getD t []
          = melFrame cfg samples t := by
        rw [List.getD_eq_getElem _ _ (by simpa using htf)]
        simp
      rw [hget, melFrame, List.getD_eq_getElem _ _ (by simpa using hm)]
      simp
    · intro f hf
      rw [List.mem_map] at hf
      obtain ⟨u, _, rfl⟩ := hf
      simp [melFrame]
    · simpa using htf

open MelSpectrogram in
/-- A minimal concrete extractor configuration used to witness the mel
claims (identity log transform, ε = 1, trivial window and twiddle
tables). -/
def melCfgW : MelConfig :=
  ⟨1, 1, 1, fun _ => 1, fun _ _ => 1, fun _ _ => 0, fun i => i, fun x => x, 1⟩

open MelSpectrogram in
/-- C4 witness: the frame-count law instance for one second of 16 kHz
audio. -/
theorem C4_compute_shape_witness : melNumFrames 512 160 16000 = 98 :=
  (C4_compute_shape melCfgW [] 0 0 (by norm_num [melCfgW])).2.2.2.1

open MelSpectrogram in
/-- C8: every output mel value is the log transform applied at a strictly
positive argument `energy + ε` with `energy ≥ 0` — the exact-arithmetic
content of the no-NaN guarantee: the guarded log argument can never be
zero or negative, for any input including all-zero silence. -/
theorem C8_compute_finite (cfg : MelConfig) (samples : List ℚ)
    (heps : 0 < cfg.eps) :
    ∀ v ∈ compute cfg samples,
      ∃ e : ℚ, 0 ≤ e ∧ 0 < e + cfg.eps ∧ v = cfg.logf (e + cfg.eps) := by
  intro v hv
  rw [compute, List.mem_flatten] at hv
  obtain ⟨fr, hfr, hvfr⟩ := hv
  rw [List.mem_map] at hfr
  obtain ⟨t, _, rfl⟩ := hfr
  rw [melFrame, List.mem_map] at hvfr
  obtain ⟨m, _, rfl⟩ := hvfr
  have hnn := melEnergy_nonneg cfg samples t m
  exact ⟨melEnergy cfg samples t m, hnn, by positivity, rfl⟩

open MelSpectrogram in
/-- C8 witness: for the all-zero (silent) one-sample input, the single
output value 1 is the identity log transform at the strictly positive
argument 0 + ε. -/
theorem C8_compute_finite_witness :
    ∃ e : ℚ, 0 ≤ e ∧ 0 < e + melCfgW.eps ∧ (1 : ℚ) = melCfgW.logf (e + melCfgW.eps) := by
  have hc : compute melCfgW [0] = [1] := by
    norm_num [compute, melNumFrames, melFrame, melValue, melEnergy, powSpec,
      rePart, imPart, triWeight, sampleAt, melCfgW, List.range_succ]
  exact C8_compute_finite melCfgW [0] (by norm_num [melCfgW]) 1 (by rw [hc]; simp)
